import Mathlib

/-!
Shallow embedding of the resumable chunked extraction pipeline of this
repository (`backend/extraction/base.py`, `backend/extraction/worldinfo.py`,
`backend/extraction/run.py`), together with theorems settling the spec's
claims about it.

Python strings are modelled as `List Char` where index arithmetic matters
(the segmenter) and as `String` where only equality, length and simple
token operations are needed (entries, records).  External effects (the
LLM client, SHA-256, JSON decoding of the raw model output, `pathlib`
normalisation) are modelled as explicit function parameters ("oracles"),
so every theorem quantifies over their behaviour.
-/

namespace WorldInfo

/-- ASCII whitespace test backing Python's `str.strip()` / `str.lstrip()`
(`' '`, `\t`, `\n`, `\x0b`, `\x0c`, `\r`). -/
def pyIsSpace (c : Char) : Bool :=
  c = ' ' || c = '\t' || c = '\n' || c = '\r' || c = '\x0B' || c = '\x0C'

/-- Python `s.strip()` on a character list. -/
def stripChars (s : List Char) : List Char :=
  ((s.dropWhile pyIsSpace).reverse.dropWhile pyIsSpace).reverse

/-- Python slice `s[i:j]` (indices clamped to the string, `i ≤ j` use). -/
def pySlice (s : List Char) (i j : Nat) : List Char :=
  (s.take j).drop i

/-- Python `s.rfind(sub, i, j)`: the greatest `k` with `i ≤ k`,
`k + |sub| ≤ j` and `sub` occurring in `s` at `k`; `none` models the
`-1` result.  (`getLast?` of the filtered ascending range is the
greatest hit.) -/
def pyRfind (s sub : List Char) (i j : Nat) : Option Nat :=
  ((List.range j).filter fun k =>
    decide (i ≤ k) && decide (k + sub.length ≤ j) && sub.isPrefixOf (s.drop k)).getLast?

/-- The sentence-ending marks tried, in order, by `_split_text_fixed`. -/
def sentenceSeps : List Char := ['。', '.', '！', '!', '？', '?']

/-- Cut-point search of `_split_text_fixed` for the window `[start, start +
chunk_size)`: a paragraph boundary (`"\n\n"`), then a single newline, then
the first sentence mark of `sentenceSeps` that occurs (cutting after the
mark), searched no earlier than the window midpoint; otherwise the hard
cut at the window edge. -/
def fixedSplitPos (text : List Char) (cs start : Nat) : Nat :=
  match pyRfind text ['\n', '\n'] (start + cs / 2) (start + cs) with
  | some p => p
  | none =>
    match pyRfind text ['\n'] (start + cs / 2) (start + cs) with
    | some p => p
    | none =>
      match sentenceSeps.findSome? (fun sep => pyRfind text [sep] (start + cs / 2) (start + cs)) with
      | some p => p + 1
      | none => start + cs

/-- The update `start = split_pos - overlap; if start < 0: start = split_pos`
of `_split_text_fixed` (the subtraction is on Python ints, so it is
negative exactly when `split_pos < overlap`). -/
def fixedNextStart (sp ov : Nat) : Nat :=
  if sp < ov then sp else sp - ov

/-- The `while start < len(text)` loop of `_split_text_fixed`, with explicit
fuel; `none` models exhausting the fuel, and a run that yields `none` for
every fuel is a non-terminating source loop. -/
def splitFixedLoop (text : List Char) (cs ov : Nat) : Nat → Nat → Option (List (List Char))
  | 0, _ => none
  | fuel + 1, start =>
    if start < text.length then
      if start + cs ≥ text.length then
        some [stripChars (text.drop start)]
      else
        let sp := fixedSplitPos text cs start
        match splitFixedLoop text cs ov fuel (fixedNextStart sp ov) with
        | some rest => some (stripChars (pySlice text start sp) :: rest)
        | none => none
    else
      some []

/-- `_split_text_fixed(text, chunk_size, overlap)`: one stripped chunk when
the text fits, otherwise the boundary-searching loop followed by the
filter dropping empty chunks.  Fuel `text.length + 1` is sufficient
whenever the loop makes forward progress. -/
def splitTextFixed (text : List Char) (cs ov : Nat) : Option (List (List Char)) :=
  if text.length ≤ cs then some [stripChars text]
  else (splitFixedLoop text cs ov (text.length + 1) 0).map (·.filter (· ≠ []))

/-- A text of fifteen `a` characters: no newline and no sentence mark, so
every window ends in a hard cut. -/
def plainText15 : List Char := List.replicate 15 'a'

/-- C2.  The claim fails on the code and the spec states the intent
(`must not infinite-loop`): with `chunk_size = 10`, `overlap = 10` on
fifteen `a`s, the hard cut lands at `split_pos = 10` and the next start is
`10 - 10 = 0` again — `start` does not strictly increase, and the
`while` loop of `_split_text_fixed` never terminates (the loop yields no
result no matter how much fuel it is given). -/
theorem c2_fixed_split_nontermination :
    fixedNextStart (fixedSplitPos plainText15 10 0) 10 = 0 ∧
    ∀ fuel, splitFixedLoop plainText15 10 10 fuel 0 = none := by
  have hsp : fixedSplitPos plainText15 10 0 = 10 := by decide
  have hns : fixedNextStart (fixedSplitPos plainText15 10 0) 10 = 0 := by decide
  refine ⟨hns, ?_⟩
  intro fuel
  induction fuel with
  | zero => rfl
  | succ n ih =>
    have hlen : plainText15.length = 15 := by decide
    simp only [splitFixedLoop, hlen, hsp]
    norm_num
    rw [show fixedNextStart 10 10 = 0 by decide, ih]

/-! ### Coverage of the fixed split (claim C5) -/

/-- Helper: a `getLast?` hit is a member of the list. -/
lemma getLast?_mem_of_eq {α : Type} {l : List α} {x : α} (h : l.getLast? = some x) :
    x ∈ l := by
  obtain ⟨hne, rfl⟩ := List.mem_getLast?_eq_getLast (Option.mem_def.mpr h)
  exact List.getLast_mem hne

/-- Characterisation of a successful `pyRfind`. -/
lemma pyRfind_eq_some {s sub : List Char} {i j k : Nat}
    (h : pyRfind s sub i j = some k) :
    i ≤ k ∧ k + sub.length ≤ j ∧ sub.isPrefixOf (s.drop k) = true := by
  have hk := getLast?_mem_of_eq h
  have := List.mem_filter.mp hk
  obtain ⟨-, hp⟩ := this
  simp only [Bool.and_eq_true, decide_eq_true_eq] at hp
  exact ⟨hp.1.1, hp.1.2, hp.2⟩

/-- If the first character of the pattern never occurs in `s`, `rfind`
misses. -/
lemma pyRfind_cons_none {s rest : List Char} {c : Char} {i j : Nat}
    (h : c ∉ s) : pyRfind s (c :: rest) i j = none := by
  cases hf : pyRfind s (c :: rest) i j with
  | none => rfl
  | some k =>
    obtain ⟨-, -, hp⟩ := pyRfind_eq_some hf
    have hpre := (List.isPrefixOf_iff_prefix).mp hp
    have : c ∈ s.drop k := hpre.subset (List.mem_cons_self c rest)
    exact absurd (List.mem_of_mem_drop this) h

/-- A `dropWhile` over characters none of which satisfy the predicate is
the identity. -/
lemma dropWhile_eq_self_of_not (p : Char → Bool) (s : List Char)
    (h : ∀ c ∈ s, p c = false) : s.dropWhile p = s := by
  cases s with
  | nil => rfl
  | cons a t =>
    rw [List.dropWhile_cons, h a (List.mem_cons_self a t)]
    simp

/-- `strip` is the identity on whitespace-free text. -/
lemma stripChars_eq_self {s : List Char} (h : ∀ c ∈ s, pyIsSpace c = false) :
    stripChars s = s := by
  unfold stripChars
  rw [dropWhile_eq_self_of_not _ _ h,
    dropWhile_eq_self_of_not _ _ (fun c hc => h c (List.mem_reverse.mp hc)),
    List.reverse_reverse]

/-- On whitespace-free text the cut point lies strictly beyond the window
midpoint and no further than the window edge. -/
lemma fixedSplitPos_bounds {text : List Char} {cs start : Nat}
    (hws : ∀ c ∈ text, pyIsSpace c = false) (hcs : 1 ≤ cs) :
    start + cs / 2 < fixedSplitPos text cs start ∧
      fixedSplitPos text cs start ≤ start + cs := by
  have hnl : ('\n' : Char) ∉ text := by
    intro hmem
    have := hws '\n' hmem
    simp [pyIsSpace] at this
  unfold fixedSplitPos
  rw [pyRfind_cons_none hnl, pyRfind_cons_none hnl]
  cases hsep : sentenceSeps.findSome? (fun sep => pyRfind text [sep] (start + cs / 2) (start + cs)) with
  | none =>
    simp only
    omega
  | some p =>
    obtain ⟨sep, -, hfind⟩ := List.exists_of_findSome?_eq_some hsep
    obtain ⟨h1, h2, -⟩ := pyRfind_eq_some hfind
    simp only [List.length_cons, List.length_nil] at h2
    simp only
    omega

/-- Trim the trailing `ov` characters from every chunk except the last
and concatenate. -/
def joinTrimLast (ov : Nat) : List (List Char) → List Char
  | [] => []
  | [c] => c
  | c :: rest => c.take (c.length - ov) ++ joinTrimLast ov rest

/-- Unfolding equation of `joinTrimLast` for a cons with non-empty tail. -/
lemma joinTrimLast_cons {ov : Nat} {c : List Char} {rest : List (List Char)}
    (h : rest ≠ []) :
    joinTrimLast ov (c :: rest) = c.take (c.length - ov) ++ joinTrimLast ov rest := by
  cases rest with
  | nil => exact absurd rfl h
  | cons d t => rfl

/-- Loop invariant: on whitespace-free text with `2 * overlap <
chunk_size`, the loop terminates from any live start with enough fuel and
the overlap-trimmed concatenation of its chunks is the remaining suffix. -/
lemma splitFixedLoop_reconstruct {text : List Char} {cs ov : Nat}
    (hws : ∀ c ∈ text, pyIsSpace c = false) (hov : 2 * ov < cs) :
    ∀ fuel start, text.length - start < fuel → start < text.length →
      ∃ chunks, splitFixedLoop text cs ov fuel start = some chunks ∧
        chunks ≠ [] ∧ ([] : List Char) ∉ chunks ∧
        joinTrimLast ov chunks = text.drop start := by
  intro fuel
  induction fuel with
  | zero => intro start h1 _; omega
  | succ n ih =>
    intro start h1 h2
    by_cases he : start + cs ≥ text.length
    · refine ⟨[stripChars (text.drop start)], ?_, by simp, ?_, ?_⟩
      · simp only [splitFixedLoop]
        rw [if_pos h2, if_pos he]
      · have hd : stripChars (text.drop start) = text.drop start :=
          stripChars_eq_self fun c hc => hws c (List.mem_of_mem_drop hc)
        rw [hd]
        have : text.drop start ≠ [] := by
          rw [Ne, List.drop_eq_nil_iff]; omega
        simp [this]
      · have hd : stripChars (text.drop start) = text.drop start :=
          stripChars_eq_self fun c hc => hws c (List.mem_of_mem_drop hc)
        rw [show joinTrimLast ov [stripChars (text.drop start)] =
          stripChars (text.drop start) from rfl, hd]
    · push_neg at he
      have hcs1 : 1 ≤ cs := by omega
      obtain ⟨hlo, hhi⟩ := @fixedSplitPos_bounds text cs start hws hcs1
      set sp := fixedSplitPos text cs start with hspdef
      have hovle : ov ≤ cs / 2 := by omega
      have hprog : start + ov < sp := by omega
      have hns : fixedNextStart sp ov = sp - ov := by
        unfold fixedNextStart
        rw [if_neg (by omega)]
      have hsplen : sp < text.length := by omega
      obtain ⟨rest, hrest, hrne, hrnil, hrjoin⟩ :=
        ih (sp - ov) (by omega) (by omega)
      have hslice : stripChars (pySlice text start sp) = pySlice text start sp :=
        stripChars_eq_self fun c hc =>
          hws c (List.mem_of_mem_drop (List.mem_of_mem_take (by
            simpa [pySlice, List.drop_take] using hc)))
      have hchunk : pySlice text start sp = (text.drop start).take (sp - start) := by
        rw [pySlice, List.drop_take]
      have hclen : (pySlice text start sp).length = sp - start := by
        rw [hchunk, List.length_take, List.length_drop]
        omega
      refine ⟨stripChars (pySlice text start sp) :: rest, ?_, by simp, ?_, ?_⟩
      · simp only [splitFixedLoop]
        rw [if_pos h2, if_neg (by omega), ← hspdef, hns, hrest]
      · intro hmem
        rcases List.mem_cons.mp hmem with hhd | htl
        · rw [hslice, hchunk] at hhd
          have : ((text.drop start).take (sp - start)).length = 0 := by
            rw [← hhd]; rfl
          rw [List.length_take, List.length_drop] at this
          omega
        · exact hrnil htl
      · rw [joinTrimLast_cons hrne, hrjoin, hslice, hclen, hchunk, List.take_take]
        have hmin : (sp - start - ov) ⊓ (sp - start) = sp - start - ov := by omega
        rw [hmin]
        have hdd : text.drop (sp - ov) = (text.drop start).drop (sp - start - ov) := by
          rw [List.drop_drop]
          congr 1
          omega
        rw [hdd]
        exact List.take_append_drop (sp - start - ov) (text.drop start)

/-- C5 counterexample helper: trim the trailing `ov` characters from every
chunk. -/
def trimJoinAll (ov : Nat) : List (List Char) → List Char
  | [] => []
  | c :: rest => c.take (c.length - ov) ++ trimJoinAll ov rest

/-- C5, reconstruction as literally claimed: keep the first chunk whole
and trim the trailing `overlap` characters from all the later chunks. -/
def joinTrimAfterFirst (ov : Nat) : List (List Char) → List Char
  | [] => []
  | c :: rest => c ++ trimJoinAll ov rest

/-- C5 counterexample: the claim's reconstruction (trailing overlap
trimmed from all but the FIRST chunk) does not rebuild the text — the
duplicated overlap sits at the START of each later chunk, so on
`"abcdefgh"` with `chunk_size = 5`, `overlap = 1` the fixed split yields
`["abcde", "efgh"]` and the claimed concatenation gives `"abcdeefg"`. -/
theorem c5_claimed_reconstruction_fails :
    (splitTextFixed ("abcdefgh".toList) 5 1).map (joinTrimAfterFirst 1) ≠
      some ("abcdefgh".toList) := by decide

/-- C5 amended: on whitespace-free text (so that per-chunk `strip` is the
identity) and with `2 * overlap < chunk_size` (so the loop makes forward
progress past the duplicated window), the fixed split succeeds and
concatenating the chunks after trimming the trailing `overlap` characters
from all but the LAST chunk reconstructs the input exactly. -/
theorem c5_fixed_coverage_amended {text : List Char} {cs ov : Nat}
    (hws : ∀ c ∈ text, pyIsSpace c = false) (hov : 2 * ov < cs) :
    ∃ chunks, splitTextFixed text cs ov = some chunks ∧
      joinTrimLast ov chunks = text := by
  unfold splitTextFixed
  by_cases hle : text.length ≤ cs
  · rw [if_pos hle]
    exact ⟨[stripChars text], rfl, by
      rw [show joinTrimLast ov [stripChars text] = stripChars text from rfl,
        stripChars_eq_self hws]⟩
  · rw [if_neg hle]
    obtain ⟨chunks, hc, -, hnil, hj⟩ :=
      splitFixedLoop_reconstruct hws hov (text.length + 1) 0 (by omega) (by omega)
    rw [hc]
    refine ⟨chunks.filter (· ≠ []), rfl, ?_⟩
    have hfe : chunks.filter (· ≠ []) = chunks := by
      rw [List.filter_eq_self]
      intro a ha
      have : a ≠ [] := fun hq => hnil (hq ▸ ha)
      simpa using this
    rw [hfe, hj, List.drop_zero]

/-- C5 amended witness at a concrete input. -/
theorem c5_fixed_coverage_amended_witness :
    (∀ c ∈ "abcdefgh".toList, pyIsSpace c = false) ∧ 2 * 1 < 5 ∧
      ∃ chunks, splitTextFixed ("abcdefgh".toList) 5 1 = some chunks ∧
        joinTrimLast 1 chunks = "abcdefgh".toList :=
  ⟨by decide, by decide, c5_fixed_coverage_amended (by decide) (by decide)⟩

/-! ### Chapter segmentation and strategy dispatch (`_split_text_ex`) -/

/-- Python `str.splitlines(keepends=True)` restricted to `\n` line endings
(the only endings exercised by the repository's Markdown inputs);
accumulator-based so that it evaluates by reduction. -/
def splitLinesKEAux (cur : List Char) : List Char → List (List Char)
  | [] => if cur = [] then [] else [cur.reverse]
  | c :: rest =>
    if c = '\n' then (cur.reverse ++ [c]) :: splitLinesKEAux [] rest
    else splitLinesKEAux (c :: cur) rest

/-- Split a text into lines, keeping the trailing newline of each line. -/
def splitLinesKE (s : List Char) : List (List Char) :=
  splitLinesKEAux [] s

/-- The heading test `re.match(r"^\s{0,3}#{1,6}\s+\S", line)`: at most
three leading whitespace characters, one to six `#` marks, at least one
whitespace character, then a non-whitespace character. -/
def lineIsHeading (line : List Char) : Bool :=
  let nws := (line.takeWhile pyIsSpace).length
  let afterWs := line.drop nws
  let nhash := (afterWs.takeWhile (· = '#')).length
  let afterHash := afterWs.drop nhash
  let nws2 := (afterHash.takeWhile pyIsSpace).length
  decide (nws ≤ 3) && decide (1 ≤ nhash) && decide (nhash ≤ 6) &&
    decide (1 ≤ nws2) && !(afterHash.drop nws2).isEmpty

/-- The backquote character (the fence marker character). -/
def backquoteChar : Char := Char.ofNat 96

/-- `line.lstrip().startswith` of three backquotes: the line toggles the
fenced-code-block state. -/
def lineTogglesFence (line : List Char) : Bool :=
  [backquoteChar, backquoteChar, backquoteChar].isPrefixOf (line.dropWhile pyIsSpace)

/-- The line scan of `_find_markdown_heading_positions`: fence toggling
first, then the heading test outside fences, accumulating character
offsets. -/
def headingPositionsAux : List (List Char) → Bool → Nat → List Nat
  | [], _, _ => []
  | line :: rest, inFence, offset =>
    let fence2 := if lineTogglesFence line then !inFence else inFence
    (if !fence2 && lineIsHeading line then [offset] else []) ++
      headingPositionsAux rest fence2 (offset + line.length)

/-- `_find_markdown_heading_positions(text)`. -/
def findMarkdownHeadingPositions (text : List Char) : List Nat :=
  headingPositionsAux (splitLinesKE text) false 0

/-- Stripped segments running from each heading position to the next (the
last one running to the end of the text). -/
def chapterSegs (text : List Char) : List Nat → List (List Char)
  | [] => []
  | [p] => [stripChars (text.drop p)]
  | p :: q :: rest => stripChars (pySlice text p q) :: chapterSegs text (q :: rest)

/-- `_split_markdown_chapters(text)`: optional stripped preface before the
first heading, then one stripped segment per heading, empty segments
dropped. -/
def splitMarkdownChapters (text : List Char) : List (List Char) :=
  match findMarkdownHeadingPositions text with
  | [] => []
  | p :: ps =>
    (if p > 0 then
      (if stripChars (text.take p) ≠ [] then [stripChars (text.take p)] else [])
     else []) ++
      (chapterSegs text (p :: ps)).filter (· ≠ [])

/-- The per-chapter loop of the chapters branch: stripped chapters at most
`max_chars` long are kept, longer ones are re-split with the fixed
strategy at `max_chars` with the same overlap (`none` propagates a
non-terminating fixed split). -/
def chaptersAccum (maxChars ov : Nat) : List (List Char) → Option (List (List Char))
  | [] => some []
  | ch :: rest =>
    if stripChars ch = [] then chaptersAccum maxChars ov rest
    else if (stripChars ch).length ≤ maxChars then
      (chaptersAccum maxChars ov rest).map (stripChars ch :: ·)
    else
      match splitTextFixed (stripChars ch) maxChars ov, chaptersAccum maxChars ov rest with
      | some chunks, some out => some (chunks ++ out)
      | _, _ => none

/-- The chapters branch of `_split_text_ex` (also reached by every
strategy value other than `"fixed"` and `"auto"`): split on Markdown
headings, fall back to the fixed strategy when no chapter is found, and
re-split over-long chapters when `chapter_max_chars` is positive. -/
def splitTextChaptersPath (text : List Char) (cs ov : Nat) (chapterMaxChars : Int) :
    Option (List (List Char)) :=
  if splitMarkdownChapters text = [] then splitTextFixed text cs ov
  else
    if (if chapterMaxChars ≠ 0 then chapterMaxChars else 0) ≤ 0 then
      some ((splitMarkdownChapters text).filter (fun c => stripChars c ≠ []))
    else chaptersAccum chapterMaxChars.toNat ov (splitMarkdownChapters text)

/-- `_split_text_ex(text, chunk_size, overlap, strategy, chapter_max_chars)`:
empty input yields no chunks; `"fixed"` and `"auto"` are dispatched
explicitly; every other strategy value falls through to the chapters
branch. -/
def splitTextEx (text : List Char) (cs ov : Nat) (strategy : String)
    (chapterMaxChars : Int) : Option (List (List Char)) :=
  if stripChars text = [] then some []
  else if strategy = "fixed" then splitTextFixed text cs ov
  else if strategy = "auto" then
    if 2 ≤ (findMarkdownHeadingPositions text).length then
      splitTextChaptersPath text cs ov chapterMaxChars
    else splitTextFixed text cs ov
  else splitTextChaptersPath text cs ov chapterMaxChars

/-- A small Markdown text with two headings. -/
def headedText : List Char := "# A\nalpha\n# B\nbeta\n".toList

/-- C9.  The claim is right and the code is wrong: `_split_text_ex` has no
rejection path at all, so an unrecognized strategy value such as
`"bogus"` is silently treated as the `"chapters"` strategy and returns
ordinary chapter chunks instead of signalling an error. -/
theorem c9_unknown_strategy_not_rejected :
    splitTextEx headedText 8000 500 "bogus" 20000 =
        some ["# A\nalpha".toList, "# B\nbeta".toList] ∧
      splitTextEx headedText 8000 500 "bogus" 20000 =
        splitTextEx headedText 8000 500 "chapters" 20000 := by
  constructor <;> decide

/-! ### Entries, local dedup and cross-chunk merge (`worldinfo.py`) -/

/-- A world-info entry as normalised by `parse_response`. -/
structure Entry where
  name : String
  key : String
  content : String
  comment : String
  priority : Int
  enabled : Bool
deriving Repr, DecidableEq

/-- Python `s.lower()` (ASCII case mapping, which is all the repository's
keys exercise). -/
def pyLowerStr (s : String) : String :=
  String.mk (s.toList.map Char.toLower)

/-- Python `s.strip()` on a `String`. -/
def pyStripStr (s : String) : String :=
  String.mk (stripChars s.toList)

/-- Python `s.split(",")[0]`: the prefix before the first comma. -/
def firstCommaToken (s : String) : String :=
  String.mk (s.toList.takeWhile (· ≠ ','))

/-- `_get_primary_key(entry)`: the lower-cased stripped `name`, falling
back to the lower-cased stripped first comma-token of `key` when `name`
is empty. -/
def getPrimaryKey (e : Entry) : String :=
  if e.name ≠ "" then pyLowerStr (pyStripStr e.name)
  else pyLowerStr (pyStripStr (firstCommaToken e.key))

/-- The `seen_keys` dedup loop of `postprocess`: first occurrence of each
primary key wins wholesale. -/
def dedupBySeenKeys (seen : List String) : List Entry → List Entry
  | [] => []
  | e :: rest =>
    if getPrimaryKey e ∈ seen then dedupBySeenKeys seen rest
    else e :: dedupBySeenKeys (getPrimaryKey e :: seen) rest

/-- `postprocess(data)`: dedup by primary key, then (unless order is
preserved) a stable sort by `priority` descending — Python's stable
`list.sort(key=priority, reverse=True)` is modelled by insertion sort
under `b.priority ≤ a.priority`. -/
def postprocess (preserveOrder : Bool) (data : List Entry) : List Entry :=
  if preserveOrder then dedupBySeenKeys [] data
  else List.insertionSort (fun a b => b.priority ≤ a.priority) (dedupBySeenKeys [] data)

/-- Metadata values stored on a result (`int` counters and `str`
messages). -/
inductive MetaVal where
  | int (n : Int)
  | str (s : String)
deriving Repr, DecidableEq

/-- `ExtractionResult` of `base.py` (for the world-info extractor, whose
`data` is an entry list; `none` models Python `None`). -/
structure ExtractionResult where
  success : Bool
  data : Option (List Entry) := none
  raw_output : String := ""
  error : Option String := none
  source : Option String := none
  metadata : List (String × MetaVal) := []
deriving Repr, DecidableEq

/-- The concatenation loop of `merge_results`: entries of successful
results, in input order (a missing or empty `data` contributes
nothing). -/
def collectEntries : List ExtractionResult → List Entry
  | [] => []
  | r :: rest => (if r.success then r.data.getD [] else []) ++ collectEntries rest

/-- `_llm_merge_entries`: no model call on an empty list, otherwise one
`invoke`+`parse_response` round trip, modelled by the oracle
`invokeParse` (the `Nat` counts model calls issued). -/
def llmMergeEntries (invokeParse : List Entry → Except String (List Entry))
    (entries : List Entry) : Except String (List Entry) × Nat :=
  if entries = [] then (Except.ok [], 0) else (invokeParse entries, 1)

/-- Outcome of `merge_results`, with the number of model calls issued. -/
structure MergeOutcome where
  entries : List Entry
  llmCalls : Nat
deriving Repr, DecidableEq

/-- `merge_results(results)`: concatenate successful entries; when
model-assisted merge is enabled, there is more than one source result and
the list is non-empty, try the model merge, falling back to the
concatenated list if it raises or fails to parse; always finish with
`postprocess`. -/
def mergeResultsEx (invokeParse : List Entry → Except String (List Entry))
    (enableLLMMerge preserveOrder : Bool) (results : List ExtractionResult) :
    MergeOutcome :=
  if enableLLMMerge = true ∧ 1 < results.length ∧ collectEntries results ≠ [] then
    match llmMergeEntries invokeParse (collectEntries results) with
    | (Except.ok merged, n) => ⟨postprocess preserveOrder merged, n⟩
    | (Except.error _, n) => ⟨postprocess preserveOrder (collectEntries results), n⟩
  else ⟨postprocess preserveOrder (collectEntries results), 0⟩

/-- The entry list returned by `merge_results`. -/
def mergeResults (invokeParse : List Entry → Except String (List Entry))
    (enableLLMMerge preserveOrder : Bool) (results : List ExtractionResult) :
    List Entry :=
  (mergeResultsEx invokeParse enableLLMMerge preserveOrder results).entries

/-- The two entries of the spec's local-dedup scenario. -/
def entryAShort : Entry :=
  { name := "A", key := "", content := "short", comment := "", priority := 10,
    enabled := true }

/-- The same-key entry with the longer content. -/
def entryALong : Entry :=
  { name := "a", key := "", content := "much longer description", comment := "",
    priority := 10, enabled := true }

/-- One successful chunk result carrying the scenario's two entries. -/
def c4Input : ExtractionResult :=
  { success := true, data := some [entryAShort, entryALong] }

/-- C4 counterexample: local dedup of the scenario's two entries keeps the
first occurrence wholesale, so the longer content is NOT retained — the
output's contents are exactly `["short"]`. -/
theorem c4_longer_content_not_retained :
    (mergeResults (fun _ => Except.error "") false false [c4Input]).map Entry.content
        = ["short"] ∧
      "much longer description" ∉
        (mergeResults (fun _ => Except.error "") false false [c4Input]).map Entry.content := by
  constructor <;> decide

/-- C4 amended: local dedup of
`[{name:"A",content:"short"}, {name:"a",content:"much longer description"}]`
returns exactly one entry, named `"A"` (the first-seen casing), with the
FIRST-seen content `"short"` retained (first occurrence wins wholesale;
the longer-content rule applies only to the gleaning merge
`_merge_entries`, not to local dedup). -/
theorem c4_local_dedup_first_wins :
    mergeResults (fun _ => Except.error "") false false [c4Input] = [entryAShort] := by
  decide

/-- Entries surviving the dedup loop have keys outside `seen`. -/
lemma dedupBySeenKeys_not_seen :
    ∀ (l : List Entry) (seen : List String) (e : Entry),
      e ∈ dedupBySeenKeys seen l → getPrimaryKey e ∉ seen := by
  intro l
  induction l with
  | nil => intro seen e h; simp [dedupBySeenKeys] at h
  | cons a t ih =>
    intro seen e h
    by_cases hk : getPrimaryKey a ∈ seen
    · rw [dedupBySeenKeys, if_pos hk] at h
      exact ih seen e h
    · rw [dedupBySeenKeys, if_neg hk] at h
      rcases List.mem_cons.mp h with rfl | htl
      · exact hk
      · intro hseen
        exact ih _ e htl (List.mem_cons_of_mem _ hseen)

/-- The dedup loop yields pairwise-distinct primary keys. -/
lemma dedupBySeenKeys_pairwise :
    ∀ (l : List Entry) (seen : List String),
      (dedupBySeenKeys seen l).Pairwise
        (fun a b => getPrimaryKey a ≠ getPrimaryKey b) := by
  intro l
  induction l with
  | nil => intro seen; simp [dedupBySeenKeys]
  | cons a t ih =>
    intro seen
    by_cases hk : getPrimaryKey a ∈ seen
    · rw [dedupBySeenKeys, if_pos hk]
      exact ih seen
    · rw [dedupBySeenKeys, if_neg hk]
      refine List.Pairwise.cons ?_ (ih _)
      intro b hb heq
      exact dedupBySeenKeys_not_seen t _ b hb (heq ▸ List.mem_cons_self _ _)

/-- `postprocess` yields pairwise-distinct primary keys (sorting only
permutes). -/
lemma postprocess_pairwise (preserveOrder : Bool) (data : List Entry) :
    (postprocess preserveOrder data).Pairwise
      (fun a b => getPrimaryKey a ≠ getPrimaryKey b) := by
  unfold postprocess
  split
  · exact dedupBySeenKeys_pairwise data []
  · have hperm :=
      List.perm_insertionSort (fun a b : Entry => b.priority ≤ a.priority)
        (dedupBySeenKeys [] data)
    exact (hperm.pairwise_iff fun h => Ne.symm h).mpr
      (dedupBySeenKeys_pairwise data [])

/-- C8.  In both merge modes (local dedup and model-assisted merge, the
latter whether the model call succeeds or fails), the entry list returned
by `merge_results` never contains two distinct entries with the same
primary key: every branch ends in `postprocess`, whose dedup loop keeps
one entry per key. -/
theorem c8_merge_dedup_invariant
    (invokeParse : List Entry → Except String (List Entry))
    (enableLLMMerge preserveOrder : Bool) (results : List ExtractionResult) :
    (mergeResults invokeParse enableLLMMerge preserveOrder results).Pairwise
      (fun a b => getPrimaryKey a ≠ getPrimaryKey b) := by
  unfold mergeResults mergeResultsEx
  split
  · split
    · exact postprocess_pairwise _ _
    · exact postprocess_pairwise _ _
  · exact postprocess_pairwise _ _

/-- C7.  `merge_results` issues the merge model call exactly when
model-assisted merge is enabled, there is more than one source result and
the concatenated successful-entry list is non-empty; if the call raises
or fails to parse (`Except.error`), the result is the local dedup of the
concatenated entries and no error surfaces; with model-assisted merge
disabled it is always the local dedup. -/
theorem c7_llm_merge_guard_and_fallback
    (invokeParse : List Entry → Except String (List Entry))
    (enableLLMMerge preserveOrder : Bool) (results : List ExtractionResult) :
    ((mergeResultsEx invokeParse enableLLMMerge preserveOrder results).llmCalls =
      if enableLLMMerge = true ∧ 1 < results.length ∧ collectEntries results ≠ []
      then 1 else 0) ∧
    (∀ e, invokeParse (collectEntries results) = Except.error e →
      mergeResults invokeParse enableLLMMerge preserveOrder results =
        postprocess preserveOrder (collectEntries results)) ∧
    (enableLLMMerge = false →
      mergeResults invokeParse enableLLMMerge preserveOrder results =
        postprocess preserveOrder (collectEntries results)) := by
  by_cases hg : enableLLMMerge = true ∧ 1 < results.length ∧ collectEntries results ≠ []
  · have hne := hg.2.2
    refine ⟨?_, ?_, ?_⟩
    · rw [mergeResultsEx, if_pos hg, llmMergeEntries, if_neg hne]
      cases hinv : invokeParse (collectEntries results) <;> simp [hinv, hg]
    · intro e he
      rw [mergeResults, mergeResultsEx, if_pos hg, llmMergeEntries, if_neg hne, he]
    · intro hdis
      exact absurd hg.1 (by simp [hdis])
  · refine ⟨?_, ?_, ?_⟩
    · rw [mergeResultsEx, if_neg hg, if_neg hg]
    · intro e _
      rw [mergeResults, mergeResultsEx, if_neg hg]
    · intro _
      rw [mergeResults, mergeResultsEx, if_neg hg]

/-- A small entry for witnesses. -/
def wEntry : Entry :=
  { name := "W", key := "", content := "c", comment := "", priority := 1,
    enabled := true }

/-- A successful chunk result carrying `wEntry`. -/
def wRes : ExtractionResult := { success := true, data := some [wEntry] }

/-- C7 witness: two source results, merge enabled, model call raising —
the guard fires (one call) and the output falls back to local dedup. -/
theorem c7_llm_merge_guard_and_fallback_witness :
    ((mergeResultsEx (fun _ => Except.error "boom") true false [wRes, wRes]).llmCalls =
      if (true : Bool) = true ∧ 1 < ([wRes, wRes] : List ExtractionResult).length ∧
          collectEntries [wRes, wRes] ≠ [] then 1 else 0) ∧
      mergeResults (fun _ => Except.error "boom") true false [wRes, wRes] =
        postprocess false (collectEntries [wRes, wRes]) :=
  ⟨(c7_llm_merge_guard_and_fallback (fun _ => Except.error "boom") true false
      [wRes, wRes]).1,
   (c7_llm_merge_guard_and_fallback (fun _ => Except.error "boom") true false
      [wRes, wRes]).2.1 "boom" rfl⟩

/-! ### `BaseExtractor.extract` and `WorldInfoExtractor.extract` -/

/-- A chat message. -/
structure Msg where
  role : String
  content : String
deriving Repr, DecidableEq

/-- The `source` recorded on a result:
`text[:100] + "..." if len(text) > 100 else text`. -/
def truncSource (text : String) : String :=
  if 100 < text.length then String.mk (text.toList.take 100) ++ "..." else text

/-- Steps 1-5 of `BaseExtractor.extract` — preprocess, build prompt,
invoke the model, parse, postprocess — as a fallible chain; each step is
an oracle since subclasses (and the model) supply arbitrary code, and
`Except.error` models a raised exception carrying its message. -/
def extractPipeline (pre : String → Except String String)
    (buildPrompt : String → Except String (List Msg))
    (invoke : List Msg → Except String String)
    (parse : String → Except String (List Entry))
    (post : List Entry → Except String (List Entry))
    (text : String) : Except String (String × List Entry) :=
  match pre text with
  | Except.error e => Except.error e
  | Except.ok processed =>
    match buildPrompt processed with
    | Except.error e => Except.error e
    | Except.ok prompt =>
      match invoke prompt with
      | Except.error e => Except.error e
      | Except.ok raw =>
        match parse raw with
        | Except.error e => Except.error e
        | Except.ok d =>
          match post d with
          | Except.error e => Except.error e
          | Except.ok d2 => Except.ok (raw, d2)

/-- `BaseExtractor.extract`: the top-level `try/except` converting any
step failure into a failed result carrying the exception message; the
function is total, modelling that it never raises to its caller. -/
def baseExtract (pre : String → Except String String)
    (buildPrompt : String → Except String (List Msg))
    (invoke : List Msg → Except String String)
    (parse : String → Except String (List Entry))
    (post : List Entry → Except String (List Entry))
    (text : String) : ExtractionResult :=
  match extractPipeline pre buildPrompt invoke parse post text with
  | Except.ok (raw, d) =>
    { success := true, data := some d, raw_output := raw,
      source := some (truncSource text) }
  | Except.error e =>
    { success := false, error := some e, source := some (truncSource text) }

/-- Python dict assignment on the metadata: overwrite in place or
append. -/
def metaInsert : List (String × MetaVal) → String → MetaVal → List (String × MetaVal)
  | [], k, v => [(k, v)]
  | (k0, v0) :: rest, k, v =>
    if k0 = k then (k0, v) :: rest else (k0, v0) :: metaInsert rest k v

/-- Lookup in the metadata dict. -/
def metaLookup (m : List (String × MetaVal)) (k : String) : Option MetaVal :=
  m.lookup k

/-- An insert is visible to a lookup at its own key. -/
lemma metaLookup_metaInsert_self :
    ∀ (m : List (String × MetaVal)) (k : String) (v : MetaVal),
      metaLookup (metaInsert m k v) k = some v := by
  intro m
  induction m with
  | nil => intro k v; simp [metaInsert, metaLookup, List.lookup]
  | cons p rest ih =>
    intro k v
    obtain ⟨k0, v0⟩ := p
    by_cases hk : k0 = k
    · subst hk
      simp [metaInsert, metaLookup, List.lookup]
    · rw [metaInsert, if_neg hk]
      have hne : (k == k0) = false := by
        simp [beq_iff_eq]
        exact fun h => hk h.symm
      simpa [metaLookup, List.lookup, hne] using ih k v

/-- `_merge_entries(original, gleaning)` keyed store: Python dict insert
preserving the position of an overwritten key. -/
def odInsert : List (String × Entry) → String → Entry → List (String × Entry)
  | [], k, v => [(k, v)]
  | (k0, v0) :: rest, k, v =>
    if k0 = k then (k0, v) :: rest else (k0, v0) :: odInsert rest k v

/-- `_merge_entries(original, gleaning)`: build the keyed store of the
original entries, then fold the gleaned entries in, replacing an existing
key only when the gleaned content is strictly longer. -/
def mergeEntries (original gleaning : List Entry) : List Entry :=
  (gleaning.foldl
    (fun d e =>
      match d.lookup (getPrimaryKey e) with
      | some prev =>
        if prev.content.length < e.content.length then odInsert d (getPrimaryKey e) e
        else d
      | none => odInsert d (getPrimaryKey e) e)
    (original.foldl (fun d e => odInsert d (getPrimaryKey e) e) [])).map Prod.snd

/-- `WorldInfoExtractor.extract`: the base extraction followed, when it
succeeded and gleaning is enabled, by the gleaning `try` block.  The
gleaning oracle (prompt construction + invoke + parse of the second pass,
given the input text and the first pass's raw output) either yields
gleaned entries — merged in when non-empty, with a `gleaning_added`
counter — or raises, which is recorded under `gleaning_error` without
failing the result. -/
def worldInfoExtract (pre : String → Except String String)
    (buildPrompt : String → Except String (List Msg))
    (invoke : List Msg → Except String String)
    (parse : String → Except String (List Entry))
    (post : List Entry → Except String (List Entry))
    (enableGleaning : Bool)
    (glean : String → String → Except String (List Entry))
    (text : String) : ExtractionResult :=
  let result := baseExtract pre buildPrompt invoke parse post text
  if result.success = false ∨ enableGleaning = false then result
  else
    match glean text result.raw_output with
    | Except.ok gleaningData =>
      if gleaningData ≠ [] then
        { result with
          data := some (mergeEntries (result.data.getD []) gleaningData),
          metadata :=
            metaInsert result.metadata "gleaning_added"
              (MetaVal.int gleaningData.length) }
      else result
    | Except.error e =>
      { result with
        metadata := metaInsert result.metadata "gleaning_error" (MetaVal.str e) }

/-- C6.  `extract` never raises: a failure of any of the five steps
becomes a failed result carrying that exception's message; a successful
pipeline yields a successful result whatever the gleaning pass does; and
a gleaning exception is recorded in the result's metadata while the
result stays successful. -/
theorem c6_extract_error_handling (pre : String → Except String String)
    (buildPrompt : String → Except String (List Msg))
    (invoke : List Msg → Except String String)
    (parse : String → Except String (List Entry))
    (post : List Entry → Except String (List Entry))
    (enableGleaning : Bool)
    (glean : String → String → Except String (List Entry)) (text : String) :
    (∀ e, extractPipeline pre buildPrompt invoke parse post text = Except.error e →
      (worldInfoExtract pre buildPrompt invoke parse post enableGleaning glean
          text).success = false ∧
        (worldInfoExtract pre buildPrompt invoke parse post enableGleaning glean
          text).error = some e) ∧
    (∀ raw d, extractPipeline pre buildPrompt invoke parse post text = Except.ok (raw, d) →
      (worldInfoExtract pre buildPrompt invoke parse post enableGleaning glean
        text).success = true) ∧
    (∀ raw d g, extractPipeline pre buildPrompt invoke parse post text = Except.ok (raw, d) →
      enableGleaning = true → glean text raw = Except.error g →
      metaLookup (worldInfoExtract pre buildPrompt invoke parse post enableGleaning
          glean text).metadata "gleaning_error" = some (MetaVal.str g)) := by
  refine ⟨?_, ?_, ?_⟩
  · intro e he
    have hbase : baseExtract pre buildPrompt invoke parse post text =
        { success := false, error := some e, source := some (truncSource text) } := by
      rw [baseExtract, he]
    rw [worldInfoExtract, hbase]
    simp
  · intro raw d hok
    have hbase : baseExtract pre buildPrompt invoke parse post text =
        { success := true, data := some d, raw_output := raw,
          source := some (truncSource text) } := by
      rw [baseExtract, hok]
    rw [worldInfoExtract, hbase]
    by_cases hgl : enableGleaning = false
    · simp [hgl]
    · simp only [hgl]
      cases hg : glean text raw with
      | ok gd =>
        by_cases hgd : gd ≠ []
        · simp [hg, hgd]
        · simp [hg, hgd]
      | error g => simp [hg]
  · intro raw d g hok hgl hg
    have hbase : baseExtract pre buildPrompt invoke parse post text =
        { success := true, data := some d, raw_output := raw,
          source := some (truncSource text) } := by
      rw [baseExtract, hok]
    rw [worldInfoExtract, hbase]
    simp only [hgl]
    simp [hg, metaLookup_metaInsert_self]

/-- C6 witness: a concrete run whose gleaning pass raises `"boom"` stays
successful and records the message. -/
theorem c6_extract_error_handling_witness :
    (worldInfoExtract (fun t => Except.ok t) (fun _ => Except.ok [])
        (fun _ => Except.ok "raw") (fun _ => Except.ok []) (fun d2 => Except.ok d2)
        true (fun _ _ => Except.error "boom") "t").success = true ∧
      metaLookup (worldInfoExtract (fun t => Except.ok t) (fun _ => Except.ok [])
        (fun _ => Except.ok "raw") (fun _ => Except.ok []) (fun d2 => Except.ok d2)
        true (fun _ _ => Except.error "boom") "t").metadata "gleaning_error" =
        some (MetaVal.str "boom") :=
  ⟨(c6_extract_error_handling (fun t => Except.ok t) (fun _ => Except.ok [])
      (fun _ => Except.ok "raw") (fun _ => Except.ok []) (fun d2 => Except.ok d2)
      true (fun _ _ => Except.error "boom") "t").2.1 "raw" [] rfl,
   (c6_extract_error_handling (fun t => Except.ok t) (fun _ => Except.ok [])
      (fun _ => Except.ok "raw") (fun _ => Except.ok []) (fun d2 => Except.ok d2)
      true (fun _ _ => Except.error "boom") "t").2.2 "raw" [] "boom" rfl rfl rfl⟩

/-! ### `parse_response` (claim C10) -/

/-- The JSON-like values decoded from the model output (`json.loads`
results: `None`, booleans, numbers — the repository's priorities are
integers —, strings, arrays, objects). -/
inductive JVal where
  | null
  | bool (b : Bool)
  | num (n : Int)
  | str (s : String)
  | arr (items : List JVal)
  | obj (fields : List (String × JVal))

/-- Python `item.get(k, d)` on a decoded object. -/
def jvGetD (fields : List (String × JVal)) (k : String) (d : JVal) : JVal :=
  match fields.lookup k with
  | some v => v
  | none => d

mutual

/-- Python `repr` of a decoded value (used by `str` on containers). -/
def pyReprJV : JVal → String
  | JVal.null => "None"
  | JVal.bool true => "True"
  | JVal.bool false => "False"
  | JVal.num n => toString n
  | JVal.str s => "\x27" ++ s ++ "\x27"
  | JVal.arr items => "[" ++ pyReprJVList items ++ "]"
  | JVal.obj fields => "\x7b" ++ pyReprJVFields fields ++ "\x7d"

/-- Comma-joined reprs of array elements. -/
def pyReprJVList : List JVal → String
  | [] => ""
  | [v] => pyReprJV v
  | v :: rest => pyReprJV v ++ ", " ++ pyReprJVList rest

/-- Comma-joined reprs of object fields. -/
def pyReprJVFields : List (String × JVal) → String
  | [] => ""
  | [(k, v)] => "\x27" ++ k ++ "\x27: " ++ pyReprJV v
  | (k, v) :: rest => "\x27" ++ k ++ "\x27: " ++ pyReprJV v ++ ", " ++ pyReprJVFields rest

end

/-- Python `str` of a decoded value (`str` is total: it never raises). -/
def pyStrJV : JVal → String
  | JVal.null => "None"
  | JVal.bool true => "True"
  | JVal.bool false => "False"
  | JVal.num n => toString n
  | JVal.str s => s
  | JVal.arr items => "[" ++ pyReprJVList items ++ "]"
  | JVal.obj fields => "\x7b" ++ pyReprJVFields fields ++ "\x7d"

/-- ASCII decimal digit test. -/
def isDigitChar (c : Char) : Bool :=
  decide ('0' ≤ c) && decide (c ≤ '9')

/-- Digit-run value with Python's single-underscore-between-digits
grouping rule. -/
def digitsValAux (acc : Nat) : List Char → Option Nat
  | [] => some acc
  | c :: rest =>
    if isDigitChar c then digitsValAux (acc * 10 + (c.toNat - '0'.toNat)) rest
    else if c = '_' then
      match rest with
      | d :: _ => if isDigitChar d then digitsValAux acc rest else none
      | [] => none
    else none

/-- Python `int(s)` on a string: optional surrounding whitespace, optional
sign, then a non-empty digit run; anything else (such as `"high"` or
`"1.5"`) raises `ValueError`, modelled by `none`. -/
def pyIntOfString (s : String) : Option Int :=
  match stripChars s.toList with
  | [] => none
  | c :: rest =>
    if c = '+' then
      match rest with
      | d :: _ => if isDigitChar d then (digitsValAux 0 rest).map Int.ofNat else none
      | [] => none
    else if c = '-' then
      match rest with
      | d :: _ =>
        if isDigitChar d then (digitsValAux 0 rest).map (fun n => -(Int.ofNat n : Int))
        else none
      | [] => none
    else if isDigitChar c then (digitsValAux 0 (c :: rest)).map Int.ofNat
    else none

/-- Python `int()` applied to a decoded JSON value: numbers pass through,
booleans coerce to 0/1, integer-literal strings parse, and every other
value raises (`Except.error`). -/
def pyIntJV : JVal → Except String Int
  | JVal.num n => Except.ok n
  | JVal.bool true => Except.ok 1
  | JVal.bool false => Except.ok 0
  | JVal.str s =>
    match pyIntOfString s with
    | some n => Except.ok n
    | none => Except.error ("invalid literal for int with base 10: " ++ s)
  | JVal.null => Except.error "int argument must be a string or a number, not NoneType"
  | JVal.arr _ => Except.error "int argument must be a string or a number, not list"
  | JVal.obj _ => Except.error "int argument must be a string or a number, not dict"

/-- One iteration of the `for item in data` loop of `parse_response`:
non-dict items are skipped (`ok none`), a dict item builds the
normalised entry — raising iff `int(item.get("priority", 10))` raises —
and is skipped when its name or content is empty. -/
def parseItem : JVal → Except String (Option Entry)
  | JVal.obj fields =>
    let name0 := pyStripStr (pyStrJV (jvGetD fields "name" (JVal.str "")))
    let key := pyStrJV (jvGetD fields "key" (jvGetD fields "keys" (JVal.str "")))
    let name := if name0 = "" ∧ key ≠ "" then pyStripStr (firstCommaToken key) else name0
    let content := pyStrJV (jvGetD fields "content" (JVal.str ""))
    let comment := pyStrJV (jvGetD fields "comment" (JVal.str ""))
    match pyIntJV (jvGetD fields "priority" (JVal.num 10)) with
    | Except.error e => Except.error e
    | Except.ok pr =>
      if name = "" ∨ content = "" then Except.ok none
      else Except.ok (some ⟨name, key, content, comment, pr, true⟩)
  | _ => Except.ok none

/-- The entry-collection loop of `parse_response`: an error in any item
aborts the whole parse. -/
def parseItemsLoop : List JVal → Except String (List Entry)
  | [] => Except.ok []
  | item :: rest =>
    match parseItem item with
    | Except.error e => Except.error e
    | Except.ok none => parseItemsLoop rest
    | Except.ok (some entry) => (parseItemsLoop rest).map (entry :: ·)

/-- `parse_response` after `extract_json`: a non-array decode raises,
an array goes through the item loop. -/
def parseResponseJV : JVal → Except String (List Entry)
  | JVal.arr items => parseItemsLoop items
  | _ => Except.error "expected a JSON array"

/-- A dict item whose priority cannot be coerced makes the whole item
loop raise. -/
lemma parseItemsLoop_error_of_bad_priority :
    ∀ (items : List JVal) (fields : List (String × JVal)),
      JVal.obj fields ∈ items →
      (∃ msg, pyIntJV (jvGetD fields "priority" (JVal.num 10)) = Except.error msg) →
      ∃ e, parseItemsLoop items = Except.error e := by
  intro items
  induction items with
  | nil => intro fields h _; simp at h
  | cons a t ih =>
    intro fields hmem hbad
    rcases List.mem_cons.mp hmem with rfl | htl
    · obtain ⟨msg, hmsg⟩ := hbad
      refine ⟨msg, ?_⟩
      rw [parseItemsLoop, show parseItem (JVal.obj fields) = Except.error msg from ?_]
      · rw [parseItem]
        simp only [hmsg]
    · obtain ⟨e, he⟩ := ih fields htl hbad
      cases hitem : parseItem a with
      | error e2 => exact ⟨e2, by rw [parseItemsLoop, hitem]⟩
      | ok opt =>
        cases opt with
        | none => exact ⟨e, by rw [parseItemsLoop, hitem]; exact he⟩
        | some entry => exact ⟨e, by rw [parseItemsLoop, hitem, he]; rfl⟩

/-- C10.  When the decoded model output is an array containing a dict
whose `priority` cannot be coerced by `int()` (for example the string
`"high"`), `parse_response` raises, so the chunk's whole extraction
returns `success = false` with no data at all — every entry of the
chunk, including otherwise valid ones, is discarded; the bad priority is
neither replaced by the default 10 nor its element individually
dropped. -/
theorem c10_bad_priority_fails_chunk (pre : String → Except String String)
    (buildPrompt : String → Except String (List Msg))
    (invoke : List Msg → Except String String)
    (jsonO : String → Except String JVal)
    (post : List Entry → Except String (List Entry))
    (glean : String → String → Except String (List Entry)) (enableGleaning : Bool)
    (text t1 raw : String) (p : List Msg) (items : List JVal)
    (fields : List (String × JVal))
    (hpre : pre text = Except.ok t1) (hbp : buildPrompt t1 = Except.ok p)
    (hinv : invoke p = Except.ok raw)
    (hjson : jsonO raw = Except.ok (JVal.arr items))
    (hmem : JVal.obj fields ∈ items)
    (hbad : ∃ msg, pyIntJV (jvGetD fields "priority" (JVal.num 10)) = Except.error msg) :
    (∃ e, parseResponseJV (JVal.arr items) = Except.error e) ∧
      (worldInfoExtract pre buildPrompt invoke
          (fun s => (jsonO s).bind parseResponseJV) post enableGleaning glean
          text).success = false ∧
      (worldInfoExtract pre buildPrompt invoke
          (fun s => (jsonO s).bind parseResponseJV) post enableGleaning glean
          text).data = none := by
  obtain ⟨e, he⟩ := parseItemsLoop_error_of_bad_priority items fields hmem hbad
  have hpr : parseResponseJV (JVal.arr items) = Except.error e := by
    rw [parseResponseJV]; exact he
  have hpipe : extractPipeline pre buildPrompt invoke
      (fun s => (jsonO s).bind parseResponseJV) post text = Except.error e := by
    simp only [extractPipeline, hpre, hbp, hinv, hjson, Except.bind, hpr]
  have hbase : baseExtract pre buildPrompt invoke
      (fun s => (jsonO s).bind parseResponseJV) post text =
      { success := false, error := some e, source := some (truncSource text) } := by
    rw [baseExtract, hpipe]
  refine ⟨⟨e, hpr⟩, ?_, ?_⟩ <;>
    · rw [worldInfoExtract, hbase]
      simp

/-- The valid element of the C10 witness array. -/
def goodItem : JVal :=
  JVal.obj [("name", JVal.str "Alice"), ("key", JVal.str "alice"),
    ("content", JVal.str "a person"), ("priority", JVal.num 5)]

/-- The element whose priority `int()` cannot convert. -/
def badItem : JVal :=
  JVal.obj [("name", JVal.str "Bob"), ("content", JVal.str "b"),
    ("priority", JVal.str "high")]

/-- C10 witness: a two-element array with one valid entry and one
`"high"` priority — the whole chunk fails and the valid entry is lost
too. -/
theorem c10_bad_priority_fails_chunk_witness :
    (∃ e, parseResponseJV (JVal.arr [goodItem, badItem]) = Except.error e) ∧
      (worldInfoExtract (fun t => Except.ok t) (fun _ => Except.ok [])
          (fun _ => Except.ok "raw")
          (fun s => ((fun _ => Except.ok (JVal.arr [goodItem, badItem])) s).bind parseResponseJV)
          (fun d2 => Except.ok d2) true (fun _ _ => Except.error "g") "t").success = false ∧
      (worldInfoExtract (fun t => Except.ok t) (fun _ => Except.ok [])
          (fun _ => Except.ok "raw")
          (fun s => ((fun _ => Except.ok (JVal.arr [goodItem, badItem])) s).bind parseResponseJV)
          (fun d2 => Except.ok d2) true (fun _ _ => Except.error "g") "t").data = none :=
  c10_bad_priority_fails_chunk (fun t => Except.ok t) (fun _ => Except.ok [])
    (fun _ => Except.ok "raw") (fun _ => Except.ok (JVal.arr [goodItem, badItem]))
    (fun d2 => Except.ok d2) (fun _ _ => Except.error "g") true
    "t" "t" "raw" [] [goodItem, badItem]
    [("name", JVal.str "Bob"), ("content", JVal.str "b"), ("priority", JVal.str "high")]
    rfl rfl rfl rfl
    (List.mem_cons_of_mem _ (List.mem_cons_self _ _))
    ⟨"invalid literal for int with base 10: high", rfl⟩

/-! ### The chunk-level resume loop of `cmd_worldinfo` (`run.py`) -/

/-- A cached chunk of the resume index:
`{"hash": ..., "entries": ..., "success": ...}`. -/
structure CachedChunk where
  hash : String
  entries : List Entry
  success : Bool
deriving Repr, DecidableEq

/-- A decoded JSONL log line with the defaults `_load_processed_chunks`
applies: `source` defaults to `""`, missing `chunk_index` / `chunk_hash`
are `none`, `entries` defaults to `[]`, `success` defaults to `True` and
is coerced with `bool`.  Chunk indices are the non-negative `enumerate`
indices the program writes. -/
structure LogObj where
  source : String
  chunk_index : Option Nat
  chunk_hash : Option String
  entries : List Entry
  success : Bool
deriving Repr, DecidableEq

/-- One record appended to the JSONL log after a chunk extraction. -/
structure LogRecord where
  source : String
  chunk_index : Nat
  chunk_hash : String
  entries : List Entry
  success : Bool
  attempts : Nat
  error : Option String
deriving Repr, DecidableEq

/-- Re-reading an appended record from the log (the JSON round trip). -/
def recordToObj (r : LogRecord) : LogObj :=
  { source := r.source, chunk_index := some r.chunk_index,
    chunk_hash := some r.chunk_hash, entries := r.entries, success := r.success }

/-- Insert one decoded log line into the resume index
(`processed[source][chunk_index] = {...}`, guarded by
`if source and chunk_index is not None and chunk_hash`); `pathNorm`
models the `str(Path(...))` normalisation applied to the stored
source. -/
def insertLogObj (pathNorm : String → String)
    (idx : String → Nat → Option CachedChunk) (o : LogObj) :
    String → Nat → Option CachedChunk :=
  match o.chunk_index, o.chunk_hash with
  | some ci, some h =>
    if pathNorm o.source ≠ "" ∧ h ≠ "" then
      fun s i =>
        if s = pathNorm o.source ∧ i = ci then some ⟨h, o.entries, o.success⟩
        else idx s i
    else idx
  | _, _ => idx

/-- `_load_processed_chunks`: fold the log lines in file order — a later
record for the same `(source, chunk_index)` pair wins. -/
def loadProcessedChunks (pathNorm : String → String) (log : List LogObj) :
    String → Nat → Option CachedChunk :=
  log.foldl (insertLogObj pathNorm) (fun _ _ => none)

/-- The bounded retry loop `for attempt in range(1, max_retries + 1)`:
`extractO attempt` is the result of the attempt-numbered
`extractor.extract(chunk)` call; the loop stops at the first success or
when the remaining budget is spent, returning the last result and the
attempt count (which equals the number of `extract` calls issued). -/
def runRetries (extractO : Nat → ExtractionResult) :
    Nat → Nat → ExtractionResult × Nat
  | attempt, 0 => (extractO attempt, attempt)
  | attempt, 1 => (extractO attempt, attempt)
  | attempt, remaining + 2 =>
    if (extractO attempt).success then (extractO attempt, attempt)
    else runRetries extractO (attempt + 1) (remaining + 1)

/-- Python `result.error or "unknown error"` (`None` and `""` are
falsy). -/
def pyOrUnknown (o : Option String) : String :=
  match o with
  | some s => if s = "" then "unknown error" else s
  | none => "unknown error"

/-- Per-chunk outcome of the resume loop. -/
structure ChunkStep where
  result : ExtractionResult
  appended : List LogRecord
  skipped : Bool
  extractCalls : Nat
deriving Repr, DecidableEq

/-- The non-cached path of the chunk loop: bounded retries, then exactly
one record appended — entries and `success: true` on success, empty
entries, `success: false` and the error message otherwise. -/
def extractChunkStep (extractO : Nat → ExtractionResult) (retryMax : Nat)
    (fileKey chunkHash : String) (ci : Nat) : ChunkStep :=
  if (runRetries extractO 1 (max 1 retryMax)).1.success then
    { result := (runRetries extractO 1 (max 1 retryMax)).1,
      appended := [⟨fileKey, ci, chunkHash,
        (runRetries extractO 1 (max 1 retryMax)).1.data.getD [], true,
        (runRetries extractO 1 (max 1 retryMax)).2, none⟩],
      skipped := false, extractCalls := (runRetries extractO 1 (max 1 retryMax)).2 }
  else
    { result := (runRetries extractO 1 (max 1 retryMax)).1,
      appended := [⟨fileKey, ci, chunkHash, [], false,
        (runRetries extractO 1 (max 1 retryMax)).2,
        some (pyOrUnknown (runRetries extractO 1 (max 1 retryMax)).1.error)⟩],
      skipped := false, extractCalls := (runRetries extractO 1 (max 1 retryMax)).2 }

/-- The result rebuilt from the cache on a hit:
`ExtractionResult(success=True, data=cached entries, source=f"...#chunk{ci}")`. -/
def cacheHitResult (fileKey : String) (ci : Nat) (entries : List Entry) :
    ExtractionResult :=
  { success := true, data := some entries,
    source := some (fileKey ++ "#chunk" ++ toString ci) }

/-- The body of `for ci, chunk in enumerate(chunks)`: a cache hit — a
loaded record for this `(file, index)` whose hash equals the chunk's
fingerprint and whose success flag is set — reuses the stored entries and
appends nothing; every other case extracts. -/
def processChunk (hashFn : String → String) (extractO : Nat → ExtractionResult)
    (retryMax : Nat) (fileIdx : Nat → Option CachedChunk) (fileKey chunk : String)
    (ci : Nat) : ChunkStep :=
  match fileIdx ci with
  | some cached =>
    if cached.hash = hashFn chunk ∧ cached.success = true then
      { result := cacheHitResult fileKey ci cached.entries,
        appended := [], skipped := true, extractCalls := 0 }
    else extractChunkStep extractO retryMax fileKey (hashFn chunk) ci
  | none => extractChunkStep extractO retryMax fileKey (hashFn chunk) ci

/-- The extraction path never reports a skip. -/
lemma extractChunkStep_skipped_false (extractO : Nat → ExtractionResult)
    (retryMax : Nat) (fileKey chunkHash : String) (ci : Nat) :
    (extractChunkStep extractO retryMax fileKey chunkHash ci).skipped = false := by
  unfold extractChunkStep
  split <;> rfl

/-- The attempt counter only grows. -/
lemma runRetries_attempt_le (extractO : Nat → ExtractionResult) :
    ∀ remaining attempt, attempt ≤ (runRetries extractO attempt remaining).2 := by
  intro remaining
  induction remaining with
  | zero => intro attempt; exact Nat.le_refl _
  | succ n ih =>
    intro attempt
    cases n with
    | zero => exact Nat.le_refl _
    | succ m =>
      rw [runRetries]
      split
      · exact Nat.le_refl _
      · exact Nat.le_trans (Nat.le_succ _) (ih (attempt + 1))

/-- The extraction path issues at least one model-extraction call and
appends exactly one record, carrying the chunk's fingerprint and the
outcome. -/
lemma extractChunkStep_appended (extractO : Nat → ExtractionResult)
    (retryMax : Nat) (fileKey chunkHash : String) (ci : Nat) :
    (extractChunkStep extractO retryMax fileKey chunkHash ci).appended.length = 1 ∧
      (∀ r ∈ (extractChunkStep extractO retryMax fileKey chunkHash ci).appended,
        r.source = fileKey ∧ r.chunk_index = ci ∧ r.chunk_hash = chunkHash ∧
          r.success = (extractChunkStep extractO retryMax fileKey chunkHash ci).result.success) ∧
      1 ≤ (extractChunkStep extractO retryMax fileKey chunkHash ci).extractCalls := by
  have hle := runRetries_attempt_le extractO (max 1 retryMax) 1
  unfold extractChunkStep
  cases hres : (runRetries extractO 1 (max 1 retryMax)).1.success <;>
    · simp [hres]
      omega

/-- C1.  For every log, file, chunk and index: extraction is skipped with
the stored entries reused exactly when the loaded resume index holds a
record for `(file, index)` whose stored hash equals the chunk's
fingerprint and whose success flag is true; in every other case the chunk
is extracted (at least one extraction call) and exactly one new record
for `(file, index)` is appended, whether the extraction succeeded or
failed.  (The SHA-256 fingerprint `_file_hash` is the abstract parameter
`hashFn`, and `str(Path(...))` is `pathNorm`.) -/
theorem c1_resume_cache_decision (hashFn pathNorm : String → String)
    (extractO : Nat → ExtractionResult) (retryMax : Nat) (log : List LogObj)
    (fileKey chunk : String) (ci : Nat) :
    let step := processChunk hashFn extractO retryMax
      (loadProcessedChunks pathNorm log fileKey) fileKey chunk ci
    (step.skipped = true ↔
      ∃ cc, loadProcessedChunks pathNorm log fileKey ci = some cc ∧
        cc.hash = hashFn chunk ∧ cc.success = true) ∧
    (step.skipped = true →
      step.appended = [] ∧ step.extractCalls = 0 ∧ step.result.success = true ∧
      ∃ cc, loadProcessedChunks pathNorm log fileKey ci = some cc ∧
        step.result.data = some cc.entries) ∧
    (step.skipped = false →
      step.appended.length = 1 ∧
      (∀ r ∈ step.appended,
        r.source = fileKey ∧ r.chunk_index = ci ∧ r.chunk_hash = hashFn chunk ∧
          r.success = step.result.success) ∧
      1 ≤ step.extractCalls) := by
  intro step
  have hstep : step = processChunk hashFn extractO retryMax
      (loadProcessedChunks pathNorm log fileKey) fileKey chunk ci := rfl
  cases hidx : loadProcessedChunks pathNorm log fileKey ci with
  | none =>
    have he : step = extractChunkStep extractO retryMax fileKey (hashFn chunk) ci := by
      rw [hstep]
      simp only [processChunk, hidx]
    refine ⟨?_, ?_, ?_⟩
    · rw [he, extractChunkStep_skipped_false]
      simp
    · intro hskip
      rw [he, extractChunkStep_skipped_false] at hskip
      exact absurd hskip (by simp)
    · intro _
      rw [he]
      exact extractChunkStep_appended extractO retryMax fileKey (hashFn chunk) ci
  | some cc =>
    by_cases hcond : cc.hash = hashFn chunk ∧ cc.success = true
    · have hh : step =
          { result := cacheHitResult fileKey ci cc.entries,
            appended := [], skipped := true, extractCalls := 0 } := by
        rw [hstep]
        simp only [processChunk, hidx]
        rw [if_pos hcond]
      refine ⟨?_, ?_, ?_⟩
      · rw [hh]
        exact ⟨fun _ => ⟨cc, rfl, hcond⟩, fun _ => rfl⟩
      · intro _
        rw [hh]
        exact ⟨rfl, rfl, rfl, cc, rfl, rfl⟩
      · intro hskip
        rw [hh] at hskip
        exact absurd hskip (by simp)
    · have he : step = extractChunkStep extractO retryMax fileKey (hashFn chunk) ci := by
        rw [hstep]
        simp only [processChunk, hidx]
        rw [if_neg hcond]
      refine ⟨?_, ?_, ?_⟩
      · rw [he, extractChunkStep_skipped_false]
        constructor
        · intro h
          exact absurd h (by simp)
        · rintro ⟨cc2, hcc2, h1, h2⟩
          injection hcc2 with hcc
          subst hcc
          exact absurd ⟨h1, h2⟩ hcond
      · intro hskip
        rw [he, extractChunkStep_skipped_false] at hskip
        exact absurd hskip (by simp)
      · intro _
        rw [he]
        exact extractChunkStep_appended extractO retryMax fileKey (hashFn chunk) ci

/-- C1 witness: a log whose single record matches the chunk's hash makes
the loop skip and append nothing. -/
theorem c1_resume_cache_decision_witness :
    (processChunk (fun _ => "h") (fun _ => wRes) 3
        (loadProcessedChunks (fun s => s) [⟨"f", some 0, some "h", [wEntry], true⟩] "f")
        "f" "c" 0).skipped = true ∧
      (processChunk (fun _ => "h") (fun _ => wRes) 3
        (loadProcessedChunks (fun s => s) [⟨"f", some 0, some "h", [wEntry], true⟩] "f")
        "f" "c" 0).appended = [] :=
  ⟨by decide,
   ((c1_resume_cache_decision (fun _ => "h") (fun s => s) (fun _ => wRes) 3
      [⟨"f", some 0, some "h", [wEntry], true⟩] "f" "c" 0).2.1 (by decide)).1⟩

/-! ### Re-running the pipeline on an unchanged log (claim C3) -/

/-- Accumulated state of the chunk loop. -/
structure LoopState where
  results : List ExtractionResult
  appended : List LogRecord
  extractCalls : Nat
deriving Repr, DecidableEq

/-- The `for ci, chunk in enumerate(chunks)` loop; the extraction oracle
is indexed by chunk index, then attempt number. -/
def runChunksAux (hashFn : String → String) (extractO : Nat → Nat → ExtractionResult)
    (retryMax : Nat) (fileIdx : Nat → Option CachedChunk) (fileKey : String) :
    List (Nat × String) → LoopState
  | [] => ⟨[], [], 0⟩
  | (ci, chunk) :: rest =>
    let step := processChunk hashFn (extractO ci) retryMax fileIdx fileKey chunk ci
    let s := runChunksAux hashFn extractO retryMax fileIdx fileKey rest
    ⟨step.result :: s.results, step.appended ++ s.appended,
      step.extractCalls + s.extractCalls⟩

/-- Outcome of the single-file `cmd_worldinfo` run: the per-chunk
results, the records appended to the log, the model-call counters, and
the merged entries (`none` models the non-zero exit that skips the merge
when a chunk failed). -/
structure RunOutcome where
  results : List ExtractionResult
  appended : List LogRecord
  extractCalls : Nat
  mergeCalls : Nat
  finalEntries : Option (List Entry)
deriving Repr, DecidableEq

/-- The single-file pipeline of `cmd_worldinfo`: load the resume index
from the log, run the chunk loop over the enumerated chunks, and — unless
some chunk failed, which skips the merge — merge the chunk results. -/
def runFilePipeline (hashFn pathNorm : String → String)
    (extractO : Nat → Nat → ExtractionResult)
    (invokeParse : List Entry → Except String (List Entry))
    (enableLLMMerge preserveOrder : Bool) (retryMax : Nat)
    (fileKey : String) (chunks : List String) (log : List LogObj) : RunOutcome :=
  let st := runChunksAux hashFn extractO retryMax
    (loadProcessedChunks pathNorm log fileKey) fileKey chunks.enum
  if st.results.any (fun r => !r.success) then
    ⟨st.results, st.appended, st.extractCalls, 0, none⟩
  else
    ⟨st.results, st.appended, st.extractCalls,
      (mergeResultsEx invokeParse enableLLMMerge preserveOrder st.results).llmCalls,
      some (mergeResultsEx invokeParse enableLLMMerge preserveOrder st.results).entries⟩

/-- The results of the run are the loop's results, merge or no merge. -/
lemma runFilePipeline_results (hashFn pathNorm : String → String)
    (extractO : Nat → Nat → ExtractionResult)
    (invokeParse : List Entry → Except String (List Entry))
    (enableLLMMerge preserveOrder : Bool) (retryMax : Nat)
    (fileKey : String) (chunks : List String) (log : List LogObj) :
    (runFilePipeline hashFn pathNorm extractO invokeParse enableLLMMerge preserveOrder
        retryMax fileKey chunks log).results =
      (runChunksAux hashFn extractO retryMax
        (loadProcessedChunks pathNorm log fileKey) fileKey chunks.enum).results := by
  simp only [runFilePipeline]
  split <;> rfl

/-- The appended records of the run are the loop's. -/
lemma runFilePipeline_appended (hashFn pathNorm : String → String)
    (extractO : Nat → Nat → ExtractionResult)
    (invokeParse : List Entry → Except String (List Entry))
    (enableLLMMerge preserveOrder : Bool) (retryMax : Nat)
    (fileKey : String) (chunks : List String) (log : List LogObj) :
    (runFilePipeline hashFn pathNorm extractO invokeParse enableLLMMerge preserveOrder
        retryMax fileKey chunks log).appended =
      (runChunksAux hashFn extractO retryMax
        (loadProcessedChunks pathNorm log fileKey) fileKey chunks.enum).appended := by
  simp only [runFilePipeline]
  split <;> rfl

/-- A log line addressing the resume-index slot `(s, i)`. -/
def touchesKey (pathNorm : String → String) (o : LogObj) (s : String) (i : Nat) : Prop :=
  pathNorm o.source = s ∧ o.chunk_index = some i

/-- Folding log lines that do not address `(s, i)` leaves that index slot
unchanged. -/
lemma foldl_insertLogObj_untouched (pathNorm : String → String) :
    ∀ (objs : List LogObj) (base : String → Nat → Option CachedChunk)
      (s : String) (i : Nat),
      (∀ o ∈ objs, ¬ touchesKey pathNorm o s i) →
      objs.foldl (insertLogObj pathNorm) base s i = base s i := by
  intro objs
  induction objs with
  | nil => intro base s i _; rfl
  | cons o rest ih =>
    intro base s i h
    rw [List.foldl_cons,
      ih (insertLogObj pathNorm base o) s i
        (fun o2 ho2 => h o2 (List.mem_cons_of_mem _ ho2))]
    have ho := h o (List.mem_cons_self _ _)
    unfold insertLogObj
    cases hci : o.chunk_index with
    | none => rfl
    | some ci =>
      cases hch : o.chunk_hash with
      | none => rfl
      | some hsh =>
        dsimp only
        split
        · dsimp only
          rw [if_neg]
          rintro ⟨h1, h2⟩
          exact ho ⟨h1.symm, by rw [hci, h2]⟩
        · rfl

/-- After a valid record for `(s, i)` followed only by lines not
addressing `(s, i)`, the loaded slot is that record. -/
lemma foldl_insertLogObj_last (pathNorm : String → String)
    (extraPre : List LogObj) (o : LogObj) (objs2 : List LogObj)
    (base : String → Nat → Option CachedChunk) (s : String) (i : Nat) (hsh : String)
    (hsrc : pathNorm o.source = s) (hs : s ≠ "")
    (hci : o.chunk_index = some i) (hch : o.chunk_hash = some hsh) (hh : hsh ≠ "")
    (hpost : ∀ o2 ∈ objs2, ¬ touchesKey pathNorm o2 s i) :
    (extraPre ++ o :: objs2).foldl (insertLogObj pathNorm) base s i =
      some ⟨hsh, o.entries, o.success⟩ := by
  rw [List.foldl_append, List.foldl_cons,
    foldl_insertLogObj_untouched pathNorm objs2 _ s i hpost]
  unfold insertLogObj
  rw [hci, hch]
  dsimp only
  rw [if_pos ⟨by rw [hsrc]; exact hs, hh⟩]
  rw [if_pos ⟨hsrc.symm, rfl⟩]

/-- Case analysis on one chunk of the loop: either a cache hit with its
cached record, or the extraction path. -/
lemma processChunk_cases (hashFn : String → String) (extractO : Nat → ExtractionResult)
    (retryMax : Nat) (fileIdx : Nat → Option CachedChunk) (fileKey chunk : String)
    (ci : Nat) :
    (∃ cc, fileIdx ci = some cc ∧ cc.hash = hashFn chunk ∧ cc.success = true ∧
      processChunk hashFn extractO retryMax fileIdx fileKey chunk ci =
        { result := cacheHitResult fileKey ci cc.entries, appended := [],
          skipped := true, extractCalls := 0 }) ∨
    processChunk hashFn extractO retryMax fileIdx fileKey chunk ci =
      extractChunkStep extractO retryMax fileKey (hashFn chunk) ci := by
  cases hidx : fileIdx ci with
  | none =>
    right
    simp only [processChunk, hidx]
  | some cc =>
    by_cases hcond : cc.hash = hashFn chunk ∧ cc.success = true
    · left
      exact ⟨cc, rfl, hcond.1, hcond.2, by
        simp only [processChunk, hidx]
        rw [if_pos hcond]⟩
    · right
      simp only [processChunk, hidx]
      rw [if_neg hcond]

/-- Rebuilding a chunk from a matching cached record. -/
lemma processChunk_hit (hashFn : String → String) (extractO : Nat → ExtractionResult)
    (retryMax : Nat) (fileIdx : Nat → Option CachedChunk) (fileKey chunk : String)
    (ci : Nat) (cc : CachedChunk) (hidx : fileIdx ci = some cc)
    (hcond : cc.hash = hashFn chunk) (hs : cc.success = true) :
    processChunk hashFn extractO retryMax fileIdx fileKey chunk ci =
      { result := cacheHitResult fileKey ci cc.entries, appended := [],
        skipped := true, extractCalls := 0 } := by
  simp only [processChunk, hidx]
  rw [if_pos ⟨hcond, hs⟩]

/-- The successful extraction path, fully explicit. -/
lemma extractChunkStep_success_eq (extractO : Nat → ExtractionResult) (retryMax : Nat)
    (fileKey chunkHash : String) (ci : Nat)
    (h : (extractChunkStep extractO retryMax fileKey chunkHash ci).result.success = true) :
    extractChunkStep extractO retryMax fileKey chunkHash ci =
      { result := (runRetries extractO 1 (max 1 retryMax)).1,
        appended := [⟨fileKey, ci, chunkHash,
          (runRetries extractO 1 (max 1 retryMax)).1.data.getD [], true,
          (runRetries extractO 1 (max 1 retryMax)).2, none⟩],
        skipped := false,
        extractCalls := (runRetries extractO 1 (max 1 retryMax)).2 } := by
  cases hres : (runRetries extractO 1 (max 1 retryMax)).1.success with
  | false => simp [extractChunkStep, hres] at h
  | true =>
    unfold extractChunkStep
    rw [if_pos hres]

/-- Appended records carry the file key and a chunk index drawn from the
processed list. -/
lemma runChunksAux_appended_bound (hashFn : String → String)
    (extractO : Nat → Nat → ExtractionResult) (retryMax : Nat)
    (fileIdx : Nat → Option CachedChunk) (fileKey : String) :
    ∀ (l : List (Nat × String)) (r : LogRecord),
      r ∈ (runChunksAux hashFn extractO retryMax fileIdx fileKey l).appended →
      r.source = fileKey ∧ r.chunk_index ∈ l.map Prod.fst := by
  intro l
  induction l with
  | nil => intro r h; simp [runChunksAux] at h
  | cons p rest ih =>
    intro r h
    obtain ⟨ci, chunk⟩ := p
    simp only [runChunksAux] at h
    rcases List.mem_append.mp h with h1 | h2
    · rcases processChunk_cases hashFn (extractO ci) retryMax fileIdx fileKey chunk ci
        with ⟨cc, -, -, -, heq⟩ | heq
      · rw [heq] at h1
        simp at h1
      · rw [heq] at h1
        have := (extractChunkStep_appended (extractO ci) retryMax fileKey
          (hashFn chunk) ci).2.1 r h1
        exact ⟨this.1, by rw [this.2.1]; simp⟩
    · obtain ⟨hsrc, hmem⟩ := ih r h2
      exact ⟨hsrc, by simp [hmem]⟩

/-- Replay lemma: when every chunk of a first run resolved successfully,
re-running the loop with the index extended by that run's appended
records (between any records not addressing these chunks) hits the cache
on every chunk — no extraction calls, nothing appended, and the same
per-chunk success/data view. -/
lemma runChunksAux_replay (hashFn pathNorm : String → String)
    (eo1 eo2 : Nat → Nat → ExtractionResult) (retryMax : Nat) (fileKey : String)
    (hnorm : pathNorm fileKey = fileKey) (hkey : fileKey ≠ "") :
    ∀ (l : List (Nat × String)) (idx1 : String → Nat → Option CachedChunk)
      (extraPre extraPost : List LogObj),
      l.Pairwise (fun a b => a.1 ≠ b.1) →
      (∀ p ∈ l, hashFn p.2 ≠ "") →
      (∀ o ∈ extraPre, ∀ p ∈ l, ¬ touchesKey pathNorm o fileKey p.1) →
      (∀ o ∈ extraPost, ∀ p ∈ l, ¬ touchesKey pathNorm o fileKey p.1) →
      (∀ r ∈ (runChunksAux hashFn eo1 retryMax (idx1 fileKey) fileKey l).results,
        r.success = true) →
      (runChunksAux hashFn eo2 retryMax
          ((extraPre ++
            (runChunksAux hashFn eo1 retryMax (idx1 fileKey) fileKey l).appended.map
              recordToObj ++ extraPost).foldl (insertLogObj pathNorm) idx1 fileKey)
          fileKey l).extractCalls = 0 ∧
      (runChunksAux hashFn eo2 retryMax
          ((extraPre ++
            (runChunksAux hashFn eo1 retryMax (idx1 fileKey) fileKey l).appended.map
              recordToObj ++ extraPost).foldl (insertLogObj pathNorm) idx1 fileKey)
          fileKey l).appended = [] ∧
      (runChunksAux hashFn eo2 retryMax
          ((extraPre ++
            (runChunksAux hashFn eo1 retryMax (idx1 fileKey) fileKey l).appended.map
              recordToObj ++ extraPost).foldl (insertLogObj pathNorm) idx1 fileKey)
          fileKey l).results.map (fun r => (r.success, r.data.getD [])) =
        (runChunksAux hashFn eo1 retryMax (idx1 fileKey) fileKey l).results.map
          (fun r => (r.success, r.data.getD [])) := by
  intro l
  induction l with
  | nil =>
    intro idx1 extraPre extraPost _ _ _ _ _
    exact ⟨rfl, rfl, rfl⟩
  | cons p rest ih =>
    intro idx1 extraPre extraPost hpair hh hpre hpost hsucc
    obtain ⟨ci, chunk⟩ := p
    obtain ⟨hcine, hpairrest⟩ := List.pairwise_cons.mp hpair
    simp only [runChunksAux] at hsucc ⊢
    have hsucc1 : (processChunk hashFn (eo1 ci) retryMax (idx1 fileKey) fileKey chunk
        ci).result.success = true :=
      hsucc _ (List.mem_cons_self _ _)
    have hsuccr : ∀ r ∈ (runChunksAux hashFn eo1 retryMax (idx1 fileKey) fileKey
        rest).results, r.success = true :=
      fun r hr => hsucc r (List.mem_cons_of_mem _ hr)
    have hrestuntouched : ∀ r ∈ (runChunksAux hashFn eo1 retryMax (idx1 fileKey)
        fileKey rest).appended, ¬ touchesKey pathNorm (recordToObj r) fileKey ci := by
      intro r hr ht
      obtain ⟨-, hmem⟩ := runChunksAux_appended_bound hashFn eo1 retryMax
        (idx1 fileKey) fileKey rest r hr
      have hrc : r.chunk_index = ci := by
        have := ht.2
        simpa [recordToObj] using this
      rcases List.mem_map.mp hmem with ⟨q, hq, hq1⟩
      exact hcine q hq ((hq1.trans hrc).symm)
    rcases processChunk_cases hashFn (eo1 ci) retryMax (idx1 fileKey) fileKey chunk ci
      with ⟨cc, hidx, hcchash, hccsucc, hiteq⟩ | hext
    · -- run 1 had a cache hit on this chunk: nothing was appended for it
      rw [hiteq]
      simp only [List.nil_append, List.map_nil]
      have hidx2 : ((extraPre ++
          (runChunksAux hashFn eo1 retryMax (idx1 fileKey) fileKey rest).appended.map
            recordToObj ++ extraPost).foldl (insertLogObj pathNorm) idx1) fileKey ci =
          some cc := by
        rw [foldl_insertLogObj_untouched]
        · exact hidx
        · intro o ho
          rcases List.mem_append.mp ho with ho1 | hoPost
          · rcases List.mem_append.mp ho1 with hoPre | hoMid
            · exact hpre o hoPre (ci, chunk) (List.mem_cons_self _ _)
            · rcases List.mem_map.mp hoMid with ⟨r, hr, rfl⟩
              exact hrestuntouched r hr
          · exact hpost o hoPost (ci, chunk) (List.mem_cons_self _ _)
      rw [processChunk_hit hashFn (eo2 ci) retryMax _ fileKey chunk ci cc hidx2
        hcchash hccsucc]
      obtain ⟨ihc, iha, ihv⟩ := ih idx1 extraPre extraPost hpairrest
        (fun q hq => hh q (List.mem_cons_of_mem _ hq))
        (fun o ho q hq => hpre o ho q (List.mem_cons_of_mem _ hq))
        (fun o ho q hq => hpost o ho q (List.mem_cons_of_mem _ hq)) hsuccr
      refine ⟨?_, ?_, ?_⟩
      · rw [ihc]
      · rw [iha]
        rfl
      · rw [List.map_cons, List.map_cons, ihv]
    · -- run 1 extracted this chunk successfully and appended one record
      rw [hext] at hsucc1 ⊢
      have heq := extractChunkStep_success_eq (eo1 ci) retryMax fileKey (hashFn chunk)
        ci hsucc1
      rw [heq] at hsucc1 ⊢
      simp only at hsucc1
      simp only [List.cons_append, List.nil_append, List.map_cons,
        List.append_assoc]
      have hhead : hashFn chunk ≠ "" := hh (ci, chunk) (List.mem_cons_self _ _)
      have huntouched2 : ∀ o2 ∈ ((runChunksAux hashFn eo1 retryMax (idx1 fileKey)
          fileKey rest).appended.map recordToObj ++ extraPost),
          ¬ touchesKey pathNorm o2 fileKey ci := by
        intro o2 ho2
        rcases List.mem_append.mp ho2 with hoMid | hoPost
        · rcases List.mem_map.mp hoMid with ⟨r, hr, rfl⟩
          exact hrestuntouched r hr
        · exact hpost o2 hoPost (ci, chunk) (List.mem_cons_self _ _)
      have hidx2 : ((extraPre ++
          (recordToObj ⟨fileKey, ci, hashFn chunk,
            (runRetries (eo1 ci) 1 (max 1 retryMax)).1.data.getD [], true,
            (runRetries (eo1 ci) 1 (max 1 retryMax)).2, none⟩ ::
          ((runChunksAux hashFn eo1 retryMax (idx1 fileKey) fileKey rest).appended.map
            recordToObj ++ extraPost))).foldl (insertLogObj pathNorm) idx1) fileKey ci =
          some ⟨hashFn chunk,
            (runRetries (eo1 ci) 1 (max 1 retryMax)).1.data.getD [], true⟩ :=
        foldl_insertLogObj_last pathNorm extraPre _ _ idx1 fileKey ci
          (hashFn chunk) hnorm hkey rfl rfl hhead huntouched2
      rw [processChunk_hit hashFn (eo2 ci) retryMax _ fileKey chunk ci _ hidx2 rfl rfl]
      obtain ⟨ihc, iha, ihv⟩ := ih idx1
        (extraPre ++ [recordToObj ⟨fileKey, ci, hashFn chunk,
          (runRetries (eo1 ci) 1 (max 1 retryMax)).1.data.getD [], true,
          (runRetries (eo1 ci) 1 (max 1 retryMax)).2, none⟩]) extraPost hpairrest
        (fun q hq => hh q (List.mem_cons_of_mem _ hq))
        (fun o ho q hq => by
          rcases List.mem_append.mp ho with hoPre | hoRec
          · exact hpre o hoPre q (List.mem_cons_of_mem _ hq)
          · rcases List.mem_singleton.mp hoRec with rfl
            rintro ⟨-, hcidx⟩
            have : ci = q.1 := by
              simpa [recordToObj] using hcidx
            exact hcine q hq this)
        (fun o ho q hq => hpost o ho q (List.mem_cons_of_mem _ hq)) hsuccr
      simp only [List.cons_append, List.nil_append, List.append_assoc,
        List.singleton_append] at ihc iha ihv
      refine ⟨?_, ?_, ?_⟩
      · rw [ihc]
      · rw [iha]
        rfl
      · rw [ihv]
        simp [cacheHitResult, hsucc1]

/-- Enumerated chunks carry pairwise-distinct indices. -/
lemma enum_keys_pairwise (l : List String) :
    l.enum.Pairwise (fun a b => a.1 ≠ b.1) := by
  have h1 : (l.enum.map Prod.fst).Nodup := by
    rw [List.enum_map_fst]
    exact List.nodup_range l.length
  exact List.pairwise_map.mp h1

/-- `collectEntries` only depends on each result's success flag and
data. -/
lemma collectEntries_congr :
    ∀ (l1 l2 : List ExtractionResult),
      l1.map (fun r => (r.success, r.data.getD [])) =
        l2.map (fun r => (r.success, r.data.getD [])) →
      collectEntries l1 = collectEntries l2 := by
  intro l1
  induction l1 with
  | nil =>
    intro l2 h
    cases l2 with
    | nil => rfl
    | cons r t => simp at h
  | cons r t ih =>
    intro l2 h
    cases l2 with
    | nil => simp at h
    | cons r2 t2 =>
      simp only [List.map_cons, List.cons.injEq] at h
      obtain ⟨hhead, htail⟩ := h
      have h1 : r.success = r2.success := congrArg Prod.fst hhead
      have h2 : r.data.getD [] = r2.data.getD [] := congrArg Prod.snd hhead
      simp only [collectEntries]
      rw [ih t2 htail, h1, h2]

/-- With model-assisted merge disabled, `merge_results` is the local
dedup with no model calls. -/
lemma mergeResultsEx_disabled (invokeParse : List Entry → Except String (List Entry))
    (preserveOrder : Bool) (results : List ExtractionResult) :
    mergeResultsEx invokeParse false preserveOrder results =
      ⟨postprocess preserveOrder (collectEntries results), 0⟩ := by
  rw [mergeResultsEx, if_neg]
  rintro ⟨h, -⟩
  simp at h

/-- Success transfers along an equal success/data view. -/
lemma success_of_view_eq {l1 l2 : List ExtractionResult}
    (h : l1.map (fun r => (r.success, r.data.getD [])) =
      l2.map (fun r => (r.success, r.data.getD [])))
    (hs : ∀ r ∈ l2, r.success = true) : ∀ r ∈ l1, r.success = true := by
  intro r hr
  have hm : (r.success, r.data.getD []) ∈
      l2.map (fun r => (r.success, r.data.getD [])) := by
    rw [← h]
    exact List.mem_map_of_mem _ hr
  rcases List.mem_map.mp hm with ⟨r2, hr2, heq⟩
  have h12 : r2.success = r.success := congrArg Prod.fst heq
  exact h12 ▸ hs r2 hr2

/-- When every chunk resolved successfully, the run performs the final
merge. -/
lemma runFilePipeline_eq_of_success (hashFn pathNorm : String → String)
    (extractO : Nat → Nat → ExtractionResult)
    (invokeParse : List Entry → Except String (List Entry))
    (enableLLMMerge preserveOrder : Bool) (retryMax : Nat)
    (fileKey : String) (chunks : List String) (log : List LogObj)
    (h : ∀ r ∈ (runChunksAux hashFn extractO retryMax
        (loadProcessedChunks pathNorm log fileKey) fileKey chunks.enum).results,
      r.success = true) :
    runFilePipeline hashFn pathNorm extractO invokeParse enableLLMMerge preserveOrder
        retryMax fileKey chunks log =
      ⟨(runChunksAux hashFn extractO retryMax
          (loadProcessedChunks pathNorm log fileKey) fileKey chunks.enum).results,
        (runChunksAux hashFn extractO retryMax
          (loadProcessedChunks pathNorm log fileKey) fileKey chunks.enum).appended,
        (runChunksAux hashFn extractO retryMax
          (loadProcessedChunks pathNorm log fileKey) fileKey chunks.enum).extractCalls,
        (mergeResultsEx invokeParse enableLLMMerge preserveOrder
          (runChunksAux hashFn extractO retryMax
            (loadProcessedChunks pathNorm log fileKey) fileKey chunks.enum).results).llmCalls,
        some (mergeResultsEx invokeParse enableLLMMerge preserveOrder
          (runChunksAux hashFn extractO retryMax
            (loadProcessedChunks pathNorm log fileKey) fileKey chunks.enum).results).entries⟩ := by
  have hany : ((runChunksAux hashFn extractO retryMax
      (loadProcessedChunks pathNorm log fileKey) fileKey chunks.enum).results.any
      fun r => !r.success) = false := by
    rw [List.any_eq_false]
    intro r hr
    simp [h r hr]
  simp only [runFilePipeline, hany]
  simp

/-- Loading an extended log folds the new lines over the old index. -/
lemma loadProcessedChunks_append (pathNorm : String → String) (l1 l2 : List LogObj) :
    loadProcessedChunks pathNorm (l1 ++ l2) =
      l2.foldl (insertLogObj pathNorm) (loadProcessedChunks pathNorm l1) :=
  List.foldl_append _ _ _ _

/-- C3 amended: with model-assisted merge disabled, re-running the
pipeline on identical input with the resumable log left exactly as the
first (fully successful) run wrote it produces the identical final entry
array, and the second run issues zero model calls — every chunk is a
cache hit and no merge call is made.  (As stated the claim is falsified
by the model-assisted merge mode, whose second run still issues the merge
call — see the counterexample.) -/
theorem c3_rerun_cache_amended (hashFn pathNorm : String → String)
    (eo1 eo2 : Nat → Nat → ExtractionResult)
    (invokeParse : List Entry → Except String (List Entry)) (preserveOrder : Bool)
    (retryMax : Nat) (fileKey : String) (chunks : List String) (log : List LogObj)
    (hnorm : pathNorm fileKey = fileKey) (hkey : fileKey ≠ "")
    (hhash : ∀ c ∈ chunks, hashFn c ≠ "")
    (hsucc : ∀ r ∈ (runFilePipeline hashFn pathNorm eo1 invokeParse false preserveOrder
        retryMax fileKey chunks log).results, r.success = true) :
    ∃ es,
      (runFilePipeline hashFn pathNorm eo1 invokeParse false preserveOrder retryMax
        fileKey chunks log).finalEntries = some es ∧
      (runFilePipeline hashFn pathNorm eo2 invokeParse false preserveOrder retryMax
        fileKey chunks
        (log ++ (runFilePipeline hashFn pathNorm eo1 invokeParse false preserveOrder
          retryMax fileKey chunks log).appended.map recordToObj)).finalEntries = some es ∧
      (runFilePipeline hashFn pathNorm eo2 invokeParse false preserveOrder retryMax
        fileKey chunks
        (log ++ (runFilePipeline hashFn pathNorm eo1 invokeParse false preserveOrder
          retryMax fileKey chunks log).appended.map recordToObj)).extractCalls = 0 ∧
      (runFilePipeline hashFn pathNorm eo2 invokeParse false preserveOrder retryMax
        fileKey chunks
        (log ++ (runFilePipeline hashFn pathNorm eo1 invokeParse false preserveOrder
          retryMax fileKey chunks log).appended.map recordToObj)).mergeCalls = 0 := by
  rw [runFilePipeline_results hashFn pathNorm eo1 invokeParse false preserveOrder
    retryMax fileKey chunks log] at hsucc
  obtain ⟨hc2, ha2, hv⟩ := runChunksAux_replay hashFn pathNorm eo1 eo2 retryMax fileKey
    hnorm hkey chunks.enum (loadProcessedChunks pathNorm log) [] []
    (enum_keys_pairwise chunks)
    (fun p hp => hhash p.2 (List.snd_mem_of_mem_enum hp))
    (fun o ho => absurd ho (List.not_mem_nil o))
    (fun o ho => absurd ho (List.not_mem_nil o))
    hsucc
  simp only [List.nil_append, List.append_nil] at hc2 ha2 hv
  rw [← loadProcessedChunks_append pathNorm log] at hc2 ha2 hv
  have hrun1 := runFilePipeline_eq_of_success hashFn pathNorm eo1 invokeParse false
    preserveOrder retryMax fileKey chunks log hsucc
  have hsucc2 := success_of_view_eq hv hsucc
  have hrun2 := runFilePipeline_eq_of_success hashFn pathNorm eo2 invokeParse false
    preserveOrder retryMax fileKey chunks
    (log ++ (runChunksAux hashFn eo1 retryMax
      (loadProcessedChunks pathNorm log fileKey) fileKey chunks.enum).appended.map
      recordToObj) hsucc2
  rw [hrun1]
  simp only
  rw [hrun2]
  simp only
  refine ⟨(mergeResultsEx invokeParse false preserveOrder
    (runChunksAux hashFn eo1 retryMax (loadProcessedChunks pathNorm log fileKey)
      fileKey chunks.enum).results).entries, rfl, ?_, ?_, ?_⟩
  · rw [mergeResultsEx_disabled, mergeResultsEx_disabled]
    simp only
    rw [collectEntries_congr _ _ hv]
  · exact hc2
  · rw [mergeResultsEx_disabled]

/-- The log written by a first run over two one-entry chunks with
model-assisted merge enabled. -/
def c3Log2 : List LogObj :=
  (runFilePipeline (fun _ => "h") (fun s => s) (fun _ _ => wRes)
    (fun es => Except.ok es) true true 1 "f" ["x", "y"] []).appended.map recordToObj

/-- C3 counterexample: with model-assisted merge enabled, the second run
over the unchanged log hits the cache on every chunk (zero extraction
calls) yet still issues one model call — the cross-chunk merge call — so
the claim's "zero additional model calls" fails as stated. -/
theorem c3_second_run_issues_model_call :
    (runFilePipeline (fun _ => "h") (fun s => s) (fun _ _ => wRes)
        (fun es => Except.ok es) true true 1 "f" ["x", "y"] c3Log2).extractCalls = 0 ∧
      (runFilePipeline (fun _ => "h") (fun s => s) (fun _ _ => wRes)
        (fun es => Except.ok es) true true 1 "f" ["x", "y"] c3Log2).mergeCalls = 1 := by
  constructor <;> decide

/-- C3 amended witness at a concrete two-chunk input. -/
theorem c3_rerun_cache_amended_witness :
    (∀ c ∈ ["x", "y"], (fun _ : String => "h") c ≠ "") ∧
      (∀ r ∈ (runFilePipeline (fun _ => "h") (fun s => s) (fun _ _ => wRes)
        (fun es => Except.ok es) false false 1 "f" ["x", "y"] []).results,
        r.success = true) ∧
      ∃ es,
        (runFilePipeline (fun _ => "h") (fun s => s) (fun _ _ => wRes)
          (fun es => Except.ok es) false false 1 "f" ["x", "y"] []).finalEntries =
            some es ∧
        (runFilePipeline (fun _ => "h") (fun s => s) (fun _ _ => wRes)
          (fun es => Except.ok es) false false 1 "f" ["x", "y"]
          ([] ++ (runFilePipeline (fun _ => "h") (fun s => s) (fun _ _ => wRes)
            (fun es => Except.ok es) false false 1 "f" ["x", "y"] []).appended.map
            recordToObj)).finalEntries = some es ∧
        (runFilePipeline (fun _ => "h") (fun s => s) (fun _ _ => wRes)
          (fun es => Except.ok es) false false 1 "f" ["x", "y"]
          ([] ++ (runFilePipeline (fun _ => "h") (fun s => s) (fun _ _ => wRes)
            (fun es => Except.ok es) false false 1 "f" ["x", "y"] []).appended.map
            recordToObj)).extractCalls = 0 ∧
        (runFilePipeline (fun _ => "h") (fun s => s) (fun _ _ => wRes)
          (fun es => Except.ok es) false false 1 "f" ["x", "y"]
          ([] ++ (runFilePipeline (fun _ => "h") (fun s => s) (fun _ _ => wRes)
            (fun es => Except.ok es) false false 1 "f" ["x", "y"] []).appended.map
            recordToObj)).mergeCalls = 0 :=
  ⟨by decide, by decide,
   c3_rerun_cache_amended (fun _ => "h") (fun s => s) (fun _ _ => wRes)
     (fun _ _ => wRes) (fun es => Except.ok es) false 1 "f" ["x", "y"] []
     rfl (by decide) (by decide) (by decide)⟩
